import Mathlib

/-!
Verification of the `yabe` bit-reinterpretation library (`src/lib.rs`).

The library composes sign-cast, truncation and extension operations on
fixed-width integers through type-level chaining (`v * Bb.s.e16.u`).  We
embed it shallowly: a value is its two's-complement bit pattern (a `Nat`
below `2 ^ width`) tagged with a `Kind` (signedness and width), each
primitive operation is a step function on `Kind × Nat` returning `none`
exactly where the Rust code has no trait impl (the chain would fail to
type-check), and a chain is a list of operations folded left to right,
mirroring `Mul` resolution order in the source.
-/

namespace Yabe

/-- Signedness of an integer kind (`i*` vs `u*` in the source). -/
inductive Sign where
  | signed
  | unsigned
deriving DecidableEq, Repr

/-- The opposite signedness. -/
def Sign.flip : Sign → Sign
  | .signed => .unsigned
  | .unsigned => .signed

/-- The five bit widths instantiated by `impl_id!(i8 u8 ... i128 u128)`. -/
inductive Width where
  | w8
  | w16
  | w32
  | w64
  | w128
deriving DecidableEq, Repr

/-- Number of bits of a width. -/
def Width.bits : Width → Nat
  | .w8 => 8
  | .w16 => 16
  | .w32 => 32
  | .w64 => 64
  | .w128 => 128

/-- An integer kind: one of the 10 Rust types `i8..i128, u8..u128`. -/
structure Kind where
  sign : Sign
  width : Width
deriving DecidableEq, Repr

/-- The primitive operations of the chain vocabulary:
`castS` is the `.s` field (`RL<CastSigned, _>`), `castU` is `.u`
(`RL<CastUnsigned, _>`), `trunc w` is `.t8/.t16/.t32/.t64`
(`Truncate8/16/32/64`), `ext w` is `.e16/.e32/.e64/.e128`
(`Extend16/32/64/128`). -/
inductive Op where
  | castS
  | castU
  | trunc (w : Width)
  | ext (w : Width)
deriving DecidableEq, Repr

/-- Bit pattern of a Rust narrowing cast `src as $U` (the `apply` bodies of
`applied_to!(Truncate8/16/32/64 => ...)`): keep the low `w` bits. -/
def truncPat (w : Width) (p : Nat) : Nat :=
  p % 2 ^ w.bits

/-- Bit pattern of a Rust widening cast `src as $U` (the `apply` bodies of
`applied_to!(Extend16/32/64/128 => ...)`): sign extension for the signed
instances (`i128 <- i64 i32 i16 i8` etc.), zero extension for the unsigned
ones.  `n` is the source width, `w` the target width. -/
def extPat (s : Sign) (n w : Width) (p : Nat) : Nat :=
  match s with
  | .unsigned => p
  | .signed => if p < 2 ^ (n.bits - 1) then p else p + (2 ^ w.bits - 2 ^ n.bits)

/-- One chain step on a kinded bit pattern.  `none` means the Rust source has
no `Mul`/`AppliedTo` impl for this operation at this kind, i.e. the chain is
rejected by the type checker:
* `castS` (`Mul<RL<CastSigned, U>>` via `MkSigned`) is defined on every type
  and yields the signed type of the same width; `cast_signed` is `self` on
  `$S` and the bit-preserving `self as $S` on `$U`;
* `castU` is symmetric via `MkUnsigned`;
* `trunc w` has impls exactly for source types strictly wider than `w`
  (`applied_to!(Truncate8 => i8: i16 i32 i64 i128)` etc.);
* `ext w` has impls exactly for source types strictly narrower than `w`
  (`applied_to!(Extend128 => i128: i64 i32 i16 i8)` etc.). -/
def stepOp : Kind × Nat → Op → Option (Kind × Nat)
  | (k, p), .castS => some (⟨.signed, k.width⟩, p)
  | (k, p), .castU => some (⟨.unsigned, k.width⟩, p)
  | (k, p), .trunc w =>
      if w.bits < k.width.bits then some (⟨k.sign, w⟩, truncPat w p) else none
  | (k, p), .ext w =>
      if k.width.bits < w.bits then some (⟨k.sign, w⟩, extPat k.sign k.width w p) else none

/-- Apply a chain of operations left to right, as `v * Bb.f₁.f₂...` associates
in the source (each `Mul` consumes the innermost pending operation first). -/
def applyChain : List Op → Kind × Nat → Option (Kind × Nat)
  | [], kv => some kv
  | op :: ops, kv => (stepOp kv op).bind (applyChain ops)

/-- Kind-level effect of one operation: the `Output` associated type of the
corresponding impl, `none` where no impl exists.  This is the data the Rust
type checker resolves before any value is supplied. -/
def stepKind : Kind → Op → Option Kind
  | k, .castS => some ⟨.signed, k.width⟩
  | k, .castU => some ⟨.unsigned, k.width⟩
  | k, .trunc w => if w.bits < k.width.bits then some ⟨k.sign, w⟩ else none
  | k, .ext w => if k.width.bits < w.bits then some ⟨k.sign, w⟩ else none

/-- Kind-level resolution of a whole chain: the output type of the chained
`Mul` expression, `none` when the chain fails to type-check. -/
def resolveKind : List Op → Kind → Option Kind
  | [], k => some k
  | op :: ops, k => (stepKind k op).bind (resolveKind ops)

/-- The mathematical integer a bit pattern denotes under a kind's
interpretation: plain value for unsigned, two's complement for signed. -/
def toInt (k : Kind) (p : Nat) : Int :=
  match k.sign with
  | .unsigned => (p : Int)
  | .signed =>
      if p < 2 ^ (k.width.bits - 1) then (p : Int) else (p : Int) - 2 ^ k.width.bits

/-- The operation the spec calls SignFlip, as realised in the source for a
value of the given signedness: `.u` (`castU`) on a signed type, `.s`
(`castS`) on an unsigned type — the cast targeting the opposite sign. -/
def signFlipOp : Sign → Op
  | .signed => .castU
  | .unsigned => .castS

/-- Every width has at least one bit. -/
theorem Width.one_le_bits (w : Width) : 1 ≤ w.bits := by
  cases w <;> simp [Width.bits]

/-- The kind-level projection of a value step agrees with `stepKind`: whether
an operation applies, and the kind it produces, never depend on the bit
pattern. -/
theorem stepOp_map_fst (k : Kind) (p : Nat) (op : Op) :
    (stepOp (k, p) op).map Prod.fst = stepKind k op := by
  cases op with
  | castS => rfl
  | castU => rfl
  | trunc w =>
      simp only [stepOp, stepKind]
      split <;> rfl
  | ext w =>
      simp only [stepOp, stepKind]
      split <;> rfl

/-- Chain application projects onto kind-level resolution: success and the
output kind of a chain depend only on the starting kind. -/
theorem applyChain_map_fst (chain : List Op) (k : Kind) (p : Nat) :
    (applyChain chain (k, p)).map Prod.fst = resolveKind chain k := by
  induction chain generalizing k p with
  | nil => rfl
  | cons op ops ih =>
      simp only [applyChain, resolveKind, ← stepOp_map_fst k p op]
      cases hs : stepOp (k, p) op with
      | none => rfl
      | some kq => simpa using ih kq.1 kq.2

/-- Truncation always produces an in-range bit pattern for the target width. -/
theorem truncPat_lt (w : Width) (p : Nat) : truncPat w p < 2 ^ w.bits :=
  Nat.mod_lt _ (Nat.two_pow_pos w.bits)

/-- Extension of an in-range pattern produces an in-range pattern for the
target width. -/
theorem extPat_lt (s : Sign) (n w : Width) (h : n.bits < w.bits) (p : Nat)
    (hp : p < 2 ^ n.bits) : extPat s n w p < 2 ^ w.bits := by
  have hnw : 2 ^ n.bits ≤ 2 ^ w.bits := Nat.pow_le_pow_right (by norm_num) h.le
  cases s with
  | unsigned => simpa [extPat] using lt_of_lt_of_le hp hnw
  | signed =>
      simp only [extPat]
      split
      · omega
      · omega

/-- Extension preserves the interpreted mathematical value: sign extension
preserves the two's-complement value of a signed pattern, zero extension the
value of an unsigned pattern. -/
theorem extPat_toInt (s : Sign) (n w : Width) (h : n.bits < w.bits) (p : Nat)
    (hp : p < 2 ^ n.bits) :
    toInt ⟨s, w⟩ (extPat s n w p) = toInt ⟨s, n⟩ p := by
  cases s with
  | unsigned => rfl
  | signed =>
      have h1 : 1 ≤ n.bits := Width.one_le_bits n
      have h2 : 1 ≤ w.bits := Width.one_le_bits w
      have hn2 : 2 ^ n.bits = 2 * 2 ^ (n.bits - 1) := by
        conv_lhs => rw [show n.bits = (n.bits - 1) + 1 by omega]
        rw [Nat.pow_succ]
        ring
      have hw2 : 2 ^ w.bits = 2 * 2 ^ (w.bits - 1) := by
        conv_lhs => rw [show w.bits = (w.bits - 1) + 1 by omega]
        rw [Nat.pow_succ]
        ring
      have hmono : 2 ^ (n.bits - 1) ≤ 2 ^ (w.bits - 1) :=
        Nat.pow_le_pow_right (by norm_num) (by omega)
      have hnw : 2 ^ n.bits ≤ 2 ^ w.bits := Nat.pow_le_pow_right (by norm_num) h.le
      by_cases hc : p < 2 ^ (n.bits - 1)
      · have hcw : p < 2 ^ (w.bits - 1) := lt_of_lt_of_le hc hmono
        simp only [toInt, extPat, if_pos hc, if_pos hcw]
      · have hq : ¬ p + (2 ^ w.bits - 2 ^ n.bits) < 2 ^ (w.bits - 1) := by omega
        simp only [toInt, extPat, if_neg hc, if_neg hq]
        have hsub : ((p + (2 ^ w.bits - 2 ^ n.bits) : Nat) : Int)
            = (p : Int) + ((2 ^ w.bits : Nat) : Int) - ((2 ^ n.bits : Nat) : Int) := by
          push_cast [hnw]
          ring
        rw [hsub]
        push_cast
        ring

/-- C1: Truncate(w) on a value of kind (s, n) with w < n is applicable, yields
kind (s, w), and the resulting bit pattern is the low-order w bits of the
input's two's-complement bit pattern (every retained bit position is
unchanged). -/
theorem truncate_keeps_low_bits (s : Sign) (n w : Width) (h : w.bits < n.bits)
    (p : Nat) (hp : p < 2 ^ n.bits) :
    applyChain [Op.trunc w] (⟨s, n⟩, p) = some (⟨s, w⟩, p % 2 ^ w.bits)
    ∧ (∀ i, i < w.bits → (p % 2 ^ w.bits).testBit i = p.testBit i) := by
  constructor
  · simp [applyChain, stepOp, h, truncPat]
  · intro i hi
    simp [Nat.testBit_mod_two_pow, hi]

/-- C1 witness: u64::MAX as unsigned-64, truncated to 8 bits, is 255 as
unsigned-8. -/
theorem truncate_keeps_low_bits_witness :
    applyChain [Op.trunc .w8] (⟨.unsigned, .w64⟩, 18446744073709551615)
      = some (⟨.unsigned, .w8⟩, 255) :=
  ((truncate_keeps_low_bits .unsigned .w64 .w8 (by decide) 18446744073709551615
      (by decide)).1).trans (by decide)

/-- C2: Extend(w) on a value of kind (s, n) with w > n is applicable, yields
kind (s, w), the result pattern is in range for width w, and its interpreted
value equals the input's interpreted value — i.e. the padding bits are copies
of the sign bit for signed kinds and zeros for unsigned kinds. -/
theorem extend_pads_with_sign (s : Sign) (n w : Width) (h : n.bits < w.bits)
    (p : Nat) (hp : p < 2 ^ n.bits) :
    applyChain [Op.ext w] (⟨s, n⟩, p) = some (⟨s, w⟩, extPat s n w p)
    ∧ extPat s n w p < 2 ^ w.bits
    ∧ toInt ⟨s, w⟩ (extPat s n w p) = toInt ⟨s, n⟩ p := by
  refine ⟨?_, extPat_lt s n w h p hp, extPat_toInt s n w h p hp⟩
  simp [applyChain, stepOp, h]

/-- C2 witness: signed-8 bit pattern 0xFF (value -1) extends to 16 bits as
pattern 0xFFFF (value -1), while unsigned-8 pattern 0xFF (value 255) extends
to pattern 0x00FF (value 255). -/
theorem extend_pads_with_sign_witness :
    applyChain [Op.ext .w16] (⟨.signed, .w8⟩, 255) = some (⟨.signed, .w16⟩, 65535)
    ∧ toInt ⟨.signed, .w16⟩ 65535 = -1
    ∧ toInt ⟨.signed, .w8⟩ 255 = -1
    ∧ applyChain [Op.ext .w16] (⟨.unsigned, .w8⟩, 255) = some (⟨.unsigned, .w16⟩, 255)
    ∧ toInt ⟨.unsigned, .w16⟩ 255 = 255 := by
  refine ⟨?_, by decide, by decide, ?_, by decide⟩
  · exact ((extend_pads_with_sign .signed .w8 .w16 (by decide) 255 (by decide)).1).trans
      (by decide)
  · exact ((extend_pads_with_sign .unsigned .w8 .w16 (by decide) 255 (by decide)).1).trans
      (by decide)

/-- C3: the cast to the opposite signedness (`.u` on a signed kind, `.s` on an
unsigned kind — the realisation of the spec's SignFlip) is applicable on every
kind, flips the signedness, keeps the width, and leaves the bit pattern
unchanged; in particular signed-8 pattern 0xFF maps to unsigned-8 value 255,
and -1 as signed-32 (pattern 0xFFFFFFFF) truncated to 8 bits then sign-flipped
is 255 as unsigned-8. -/
theorem signflip_bit_identity :
    (∀ (k : Kind) (p : Nat),
        applyChain [signFlipOp k.sign] (k, p) = some (⟨k.sign.flip, k.width⟩, p))
    ∧ applyChain [signFlipOp .signed] (⟨.signed, .w8⟩, 255) = some (⟨.unsigned, .w8⟩, 255)
    ∧ toInt ⟨.signed, .w8⟩ 255 = -1
    ∧ toInt ⟨.unsigned, .w8⟩ 255 = 255
    ∧ applyChain [Op.trunc .w8, signFlipOp .signed] (⟨.signed, .w32⟩, 4294967295)
        = some (⟨.unsigned, .w8⟩, 255) := by
  refine ⟨?_, by decide, by decide, by decide, by decide⟩
  intro k p
  cases k with
  | mk s w => cases s <;> rfl

/-- C4: ill-typed chains are rejected at kind-resolution, independently of the
value: [Truncate(8), Truncate(8)] fails from every starting kind, [Truncate(16)]
fails from signed-8, and chain application succeeds (with the same output kind)
exactly when kind-level resolution does — applicability never depends on the
bit pattern, so nothing is silently coerced. -/
theorem inapplicable_chain_rejected :
    (∀ k : Kind, resolveKind [Op.trunc .w8, Op.trunc .w8] k = none)
    ∧ resolveKind [Op.trunc .w16] ⟨.signed, .w8⟩ = none
    ∧ (∀ (k : Kind) (p : Nat), applyChain [Op.trunc .w8, Op.trunc .w8] (k, p) = none)
    ∧ (∀ p : Nat, applyChain [Op.trunc .w16] (⟨.signed, .w8⟩, p) = none)
    ∧ (∀ (chain : List Op) (k : Kind) (p : Nat),
        (applyChain chain (k, p)).map Prod.fst = resolveKind chain k) := by
  refine ⟨?_, by decide, ?_, ?_, applyChain_map_fst⟩
  · intro k
    cases k with
    | mk s w => cases s <;> cases w <;> decide
  · intro k p
    cases k with
    | mk s w => cases w <;> simp [applyChain, stepOp, Width.bits]
  · intro p
    simp [applyChain, stepOp, Width.bits]

/-- C5: the chain `Bb.s.e16.u` ([SignFlip, Extend(16), SignFlip]) on unsigned-8
input 0xFE (254) yields unsigned-16 65534 (pattern 0xFFFE), because the first
cast makes the kind signed so Extend(16) sign-extends; the reordered chain
`Bb.e16.s` zero-extends under the original unsigned kind and yields signed-16
254 instead. -/
theorem flip_extend_flip_order :
    applyChain [Op.castS, Op.ext .w16, Op.castU] (⟨.unsigned, .w8⟩, 254)
      = some (⟨.unsigned, .w16⟩, 65534)
    ∧ applyChain [Op.ext .w16, Op.castS] (⟨.unsigned, .w8⟩, 254)
      = some (⟨.signed, .w16⟩, 254) := by
  decide

/-- C6: for an unsigned kind of width n and any wider target m, the chain
[Extend(m), Truncate(n)] returns every in-range value unchanged. -/
theorem extend_truncate_roundtrip (n m : Width) (h : n.bits < m.bits)
    (p : Nat) (hp : p < 2 ^ n.bits) :
    applyChain [Op.ext m, Op.trunc n] (⟨.unsigned, n⟩, p)
      = some (⟨.unsigned, n⟩, p) := by
  simp [applyChain, stepOp, h, extPat, truncPat, Nat.mod_eq_of_lt hp]

/-- C6 witness: unsigned-8 value 200 extended to 64 bits and truncated back to
8 bits is 200 again. -/
theorem extend_truncate_roundtrip_witness :
    applyChain [Op.ext .w64, Op.trunc .w8] (⟨.unsigned, .w8⟩, 200)
      = some (⟨.unsigned, .w8⟩, 200) :=
  extend_truncate_roundtrip .w8 .w64 (by decide) 200 (by decide)

/-- C7: flipping the signedness twice (cast to the opposite sign, then cast
back) restores both the kind and the bit pattern for every kind and value; in
particular `255u8 * Bb.s.u` is 255 as unsigned-8. -/
theorem double_signflip_id :
    (∀ (k : Kind) (p : Nat),
        applyChain [signFlipOp k.sign, signFlipOp k.sign.flip] (k, p) = some (k, p))
    ∧ applyChain [Op.castS, Op.castU] (⟨.unsigned, .w8⟩, 255)
        = some (⟨.unsigned, .w8⟩, 255) := by
  refine ⟨?_, by decide⟩
  intro k p
  cases k with
  | mk s w => cases s <;> rfl

/-- C8: the empty chain (`v * Bb`, the `impl_id!` instances) returns every
value unchanged with its kind; in particular unsigned-8 input 5 yields 5. -/
theorem identity_empty_chain :
    (∀ (k : Kind) (p : Nat), applyChain [] (k, p) = some (k, p))
    ∧ applyChain [] (⟨.unsigned, .w8⟩, 5) = some (⟨.unsigned, .w8⟩, 5) :=
  ⟨fun _ _ => rfl, rfl⟩

/-- Every successful step sends an in-range bit pattern to an in-range bit
pattern for the output kind's width. -/
theorem stepOp_lt (k k' : Kind) (p q : Nat) (op : Op) (hp : p < 2 ^ k.width.bits)
    (h : stepOp (k, p) op = some (k', q)) : q < 2 ^ k'.width.bits := by
  cases op with
  | castS =>
      simp only [stepOp, Option.some.injEq, Prod.mk.injEq] at h
      obtain ⟨hk, hq⟩ := h
      subst hk
      subst hq
      exact hp
  | castU =>
      simp only [stepOp, Option.some.injEq, Prod.mk.injEq] at h
      obtain ⟨hk, hq⟩ := h
      subst hk
      subst hq
      exact hp
  | trunc w =>
      simp only [stepOp] at h
      by_cases hc : w.bits < k.width.bits
      · rw [if_pos hc] at h
        simp only [Option.some.injEq, Prod.mk.injEq] at h
        obtain ⟨hk, hq⟩ := h
        subst hk
        subst hq
        exact truncPat_lt w p
      · rw [if_neg hc] at h
        cases h
  | ext w =>
      simp only [stepOp] at h
      by_cases hc : k.width.bits < w.bits
      · rw [if_pos hc] at h
        simp only [Option.some.injEq, Prod.mk.injEq] at h
        obtain ⟨hk, hq⟩ := h
        subst hk
        subst hq
        exact extPat_lt k.sign k.width w hc p hp
      · rw [if_neg hc] at h
        cases h

/-- C9: once a chain type-resolves from a starting kind, applying it succeeds
on every in-range value of that kind and produces an in-range value of the
resolved output kind — no value-dependent failure is possible. -/
theorem wellformed_chain_total (chain : List Op) (k k' : Kind)
    (h : resolveKind chain k = some k') (p : Nat) (hp : p < 2 ^ k.width.bits) :
    ∃ q, applyChain chain (k, p) = some (k', q) ∧ q < 2 ^ k'.width.bits := by
  induction chain generalizing k p with
  | nil =>
      simp only [resolveKind, Option.some.injEq] at h
      subst h
      exact ⟨p, rfl, hp⟩
  | cons op ops ih =>
      simp only [resolveKind] at h
      cases hsk : stepKind k op with
      | none => rw [hsk] at h; cases h
      | some k1 =>
          rw [hsk] at h
          simp only [Option.some_bind] at h
          have hmap := stepOp_map_fst k p op
          rw [hsk] at hmap
          cases hso : stepOp (k, p) op with
          | none => rw [hso] at hmap; cases hmap
          | some kq =>
              rw [hso] at hmap
              simp only [Option.map_some', Option.some.injEq] at hmap
              have hso1 : stepOp (k, p) op = some (k1, kq.2) := by
                rw [hso, ← hmap]
              have hq2 : kq.2 < 2 ^ k1.width.bits :=
                stepOp_lt k k1 p kq.2 op hp hso1
              obtain ⟨q, hq, hqlt⟩ := ih k1 h kq.2 hq2
              refine ⟨q, ?_, hqlt⟩
              simp only [applyChain, hso1, Option.some_bind]
              exact hq

/-- C9 witness: the chain `Bb.s.e64.u` resolves from unsigned-8 to unsigned-64
and therefore succeeds on the in-range input 200 with an in-range result. -/
theorem wellformed_chain_total_witness :
    ∃ q, applyChain [Op.castS, Op.ext .w64, Op.castU] (⟨.unsigned, .w8⟩, 200)
        = some (⟨.unsigned, .w64⟩, q) ∧ q < 2 ^ Width.w64.bits :=
  wellformed_chain_total [Op.castS, Op.ext .w64, Op.castU]
    ⟨.unsigned, .w8⟩ ⟨.unsigned, .w64⟩ (by decide) 200 (by decide)

/-- C10: the sign operations are casts to a target signedness, not strict
flips: `.s` on an already-signed kind and `.u` on an already-unsigned kind are
applicable and act as the identity, `.s.s` type-resolves on every kind, and
`v * Bb.s.s` equals `v * Bb.s` for every value. -/
theorem cast_to_sign_idempotent :
    (∀ (w : Width) (p : Nat),
        applyChain [Op.castS] (⟨.signed, w⟩, p) = some (⟨.signed, w⟩, p))
    ∧ (∀ (w : Width) (p : Nat),
        applyChain [Op.castU] (⟨.unsigned, w⟩, p) = some (⟨.unsigned, w⟩, p))
    ∧ (∀ (k : Kind) (p : Nat),
        applyChain [Op.castS, Op.castS] (k, p) = applyChain [Op.castS] (k, p))
    ∧ (∀ k : Kind, resolveKind [Op.castS, Op.castS] k = some ⟨.signed, k.width⟩) :=
  ⟨fun _ _ => rfl, fun _ _ => rfl, fun _ _ => rfl, fun _ => rfl⟩

end Yabe
